import Mathlib

/- Shallow embedding of `MakeTStructureMesh` from
`content/shells/tstructmesh.py`.  The function is pure index arithmetic:
it produces a list of 3D points (rational coordinates), a list of 2D face
elements (each a list of indices into the point list, in the order the
Python code passes them to `Element2D`), a list of tagged 1D boundary
elements (in the order they are passed to `Element1D`), and the boundary
tag-name table set via `SetCD2Name`.  Machine floats of the source are
modelled as exact rationals; the external meshing library's opaque point
handles are modelled by the point's position in the insertion sequence,
which is exactly how the Python code uses the `pids` list. -/

/-- Points of the upper patch, `for i in range(ny1+1): for j in range(nx1+1):
mesh.Add(MeshPoint(Pnt(j/nx1, i/ny1, 0)))`, in insertion order. -/
def upperPoints (nx1 ny1 : ℕ) : List (ℚ × ℚ × ℚ) :=
  (List.range (ny1 + 1)).flatMap (fun i : ℕ =>
    (List.range (nx1 + 1)).map (fun j : ℕ =>
      ((j : ℚ) / nx1, (i : ℚ) / ny1, 0)))

/-- Points of the lower patch, `for i in range(1, ny2+1): for j in range(nx2+1):
mesh.Add(MeshPoint(Pnt(j/nx2, ratio, -i/ny2)))`, in insertion order. -/
def lowerPoints (nx2 ny2 : ℕ) ( ratio : ℚ) : List (ℚ × ℚ × ℚ) :=
  (List.range' 1 ny2).flatMap (fun i : ℕ =>
    (List.range (nx2 + 1)).map (fun j : ℕ =>
      ((j : ℚ) / nx2, ratio, -(i : ℚ) / ny2)))

/-- The full point sequence `pids`: upper patch first, then lower patch. -/
def pts (nx1 ny1 nx2 ny2 : ℕ) ( ratio : ℚ) : List (ℚ × ℚ × ℚ) :=
  upperPoints nx1 ny1 ++ lowerPoints nx2 ny2 ratio

/-- 2D elements covering the upper patch: for each cell `(i, j)` with
`base = i*(nx1+1)+j`, one quad `[base, base+1, base+nx1+2, base+nx1+1]`
when `quads`, else the two triangles `[base, base+1, base+nx1+1]` and
`[base+1, base+nx1+2, base+nx1+1]`. -/
def upperEls (quads : Bool) (nx1 ny1 : ℕ) : List (List ℕ) :=
  (List.range ny1).flatMap (fun i =>
    (List.range nx1).flatMap (fun j =>
      let base := i * (nx1 + 1) + j
      if quads then [[base, base + 1, base + nx1 + 2, base + nx1 + 1]]
      else [[base, base + 1, base + nx1 + 1],
            [base + 1, base + nx1 + 2, base + nx1 + 1]]))

/-- 2D elements of the connector strip: for `j in range(nx1)` with
`base = int(ny1/2)*(nx1+1)+j` and `base1 = (ny1+1)*(nx1+1)`, one quad
`[base, base+1, base1+j+1, base1+j]` when `quads`, else the two triangles
`[base, base+1, base+nx1+1]` and `[base+1, base+nx1+2, base+nx1+1]`
(exactly as written in the source). -/
def connectorEls (quads : Bool) (nx1 ny1 : ℕ) : List (List ℕ) :=
  (List.range nx1).flatMap (fun j =>
    let base1 := (ny1 + 1) * (nx1 + 1)
    let base := ny1 / 2 * (nx1 + 1) + j
    if quads then [[base, base + 1, base1 + j + 1, base1 + j]]
    else [[base, base + 1, base + nx1 + 1],
          [base + 1, base + nx1 + 2, base + nx1 + 1]])

/-- 2D elements of the lower patch: `for i in range(1, ny2)`, `for j in
range(nx2)` with `base = base1 + (i-1)*(nx2+1) + j`. -/
def lowerEls (quads : Bool) (nx1 ny1 nx2 ny2 : ℕ) : List (List ℕ) :=
  (List.range' 1 (ny2 - 1)).flatMap (fun i =>
    (List.range nx2).flatMap (fun j =>
      let base := (ny1 + 1) * (nx1 + 1) + (i - 1) * (nx2 + 1) + j
      if quads then [[base, base + 1, base + nx2 + 2, base + nx2 + 1]]
      else [[base, base + 1, base + nx2 + 1],
            [base + 1, base + nx2 + 2, base + nx2 + 1]]))

/-- All 2D elements in insertion order: upper patch, connector strip,
lower patch. -/
def el2d (quads : Bool) (nx1 ny1 nx2 ny2 : ℕ) : List (List ℕ) :=
  upperEls quads nx1 ny1 ++ connectorEls quads nx1 ny1
    ++ lowerEls quads nx1 ny1 nx2 ny2

/-- Segments with boundary index 1 (`upbottom`). -/
def segs1 (nx1 : ℕ) : List (ℕ × ℕ) :=
  (List.range nx1).map (fun i => (i, i + 1))

/-- Segments with boundary index 2 (`upright`). -/
def segs2 (nx1 ny1 : ℕ) : List (ℕ × ℕ) :=
  (List.range ny1).map (fun i =>
    (i * (nx1 + 1) + nx1, (i + 1) * (nx1 + 1) + nx1))

/-- Segments with boundary index 3 (`uptop`). -/
def segs3 (nx1 ny1 : ℕ) : List (ℕ × ℕ) :=
  (List.range nx1).map (fun i =>
    (ny1 * (nx1 + 1) + i + 1, ny1 * (nx1 + 1) + i))

/-- Segments with boundary index 4 (`upleft`). -/
def segs4 (nx1 ny1 : ℕ) : List (ℕ × ℕ) :=
  (List.range ny1).map (fun i => ((i + 1) * (nx1 + 1), i * (nx1 + 1)))

/-- Segments with boundary index 5 (`interface`). -/
def segs5 (nx1 ny1 nx2 : ℕ) : List (ℕ × ℕ) :=
  (List.range nx2).map (fun i =>
    (ny1 / 2 * (nx1 + 1) + i, ny1 / 2 * (nx1 + 1) + i + 1))

/-- Segments with boundary index 6 (`downright`): one segment from the
seam row's left end down to `base1`, then `ny2-1` segments along the lower
patch's left column. -/
def segs6 (nx1 ny1 nx2 ny2 : ℕ) : List (ℕ × ℕ) :=
  (ny1 / 2 * (nx1 + 1), (ny1 + 1) * (nx1 + 1))
    :: (List.range (ny2 - 1)).map (fun i =>
      (i * (nx2 + 1) + (ny1 + 1) * (nx1 + 1),
       (i + 1) * (nx2 + 1) + (ny1 + 1) * (nx1 + 1)))

/-- Segments with boundary index 7 (`downbottom`). -/
def segs7 (nx1 ny1 nx2 ny2 : ℕ) : List (ℕ × ℕ) :=
  (List.range nx2).map (fun i =>
    ((ny2 - 1) * (nx2 + 1) + i + (ny1 + 1) * (nx1 + 1),
     (ny2 - 1) * (nx2 + 1) + i + 1 + (ny1 + 1) * (nx1 + 1)))

/-- Segments with boundary index 8 (`downleft`): `ny2-1` segments along
the lower patch's right column, then the final segment
`[pids[base1+nx1], pids[int(ny1/2)*(nx1+1)+nx1]]` (note the source uses
`nx1` to address the lower block here). -/
def segs8 (nx1 ny1 nx2 ny2 : ℕ) : List (ℕ × ℕ) :=
  (List.range (ny2 - 1)).map (fun i =>
    ((i + 1) * (nx2 + 1) + nx2 + (ny1 + 1) * (nx1 + 1),
     i * (nx2 + 1) + nx2 + (ny1 + 1) * (nx1 + 1)))
    ++ [((ny1 + 1) * (nx1 + 1) + nx1, ny1 / 2 * (nx1 + 1) + nx1)]

/-- All 1D boundary elements in insertion order, each paired with its
boundary index (the `index=` argument of `Element1D`). -/
def el1d (nx1 ny1 nx2 ny2 : ℕ) : List ((ℕ × ℕ) × ℕ) :=
  (segs1 nx1).map (fun e => (e, 1))
    ++ (segs2 nx1 ny1).map (fun e => (e, 2))
    ++ (segs3 nx1 ny1).map (fun e => (e, 3))
    ++ (segs4 nx1 ny1).map (fun e => (e, 4))
    ++ (segs5 nx1 ny1 nx2).map (fun e => (e, 5))
    ++ (segs6 nx1 ny1 nx2 ny2).map (fun e => (e, 6))
    ++ (segs7 nx1 ny1 nx2 ny2).map (fun e => (e, 7))
    ++ (segs8 nx1 ny1 nx2 ny2).map (fun e => (e, 8))

/-- Boundary tag names, as set by the `SetCD2Name` calls. -/
def cdNames : ℕ → String
  | 1 => "upbottom"
  | 2 => "upright"
  | 3 => "uptop"
  | 4 => "upleft"
  | 5 => "interface"
  | 6 => "downright"
  | 7 => "downbottom"
  | 8 => "downleft"
  | _ => ""

/-- The 1D elements carrying boundary index `t`, in insertion order. -/
def tagSegs (nx1 ny1 nx2 ny2 t : ℕ) : List (ℕ × ℕ) :=
  ((el1d nx1 ny1 nx2 ny2).filter (fun e => e.2 == t)).map (fun e => e.1)

/-- The whole construction: point sequence, 2D elements, tagged 1D
elements, tag names. -/
def MakeTStructureMesh (quads : Bool) (nx1 ny1 nx2 ny2 : ℕ) ( ratio : ℚ) :
    List (ℚ × ℚ × ℚ) × List (List ℕ) × List ((ℕ × ℕ) × ℕ) × (ℕ → String) :=
  (pts nx1 ny1 nx2 ny2 ratio, el2d quads nx1 ny1 nx2 ny2,
   el1d nx1 ny1 nx2 ny2, cdNames)

/-- Orientation-insensitive view of a segment: the pair sorted. -/
def norm2 (e : ℕ × ℕ) : ℕ × ℕ := if e.1 ≤ e.2 then e else (e.2, e.1)

/-- The successive edges of a vertex path. -/
def chainEdges : List ℕ → List (ℕ × ℕ)
  | [] => []
  | [_] => []
  | a :: b :: rest => (a, b) :: chainEdges (b :: rest)

/-- A segment list forms a single connected chain visiting no point
twice: up to reordering and per-segment orientation it is the edge list
of a duplicate-free vertex path. -/
def isChain (segs : List (ℕ × ℕ)) : Prop :=
  ∃ vs : List ℕ, vs.Nodup ∧ (segs.map norm2).Perm ((chainEdges vs).map norm2)

theorem upperPoints_length (nx1 ny1 : ℕ) :
    (upperPoints nx1 ny1).length = (ny1 + 1) * (nx1 + 1) := by
  simp [upperPoints, List.length_flatMap, Function.comp_def, List.map_const',
    List.sum_replicate, smul_eq_mul, mul_comm]

theorem lowerPoints_length (nx2 ny2 : ℕ) (r : ℚ) :
    (lowerPoints nx2 ny2 r).length = ny2 * (nx2 + 1) := by
  simp [lowerPoints, List.length_flatMap, Function.comp_def, List.map_const',
    List.sum_replicate, smul_eq_mul, mul_comm]

theorem pts_length (nx1 ny1 nx2 ny2 : ℕ) (r : ℚ) :
    (pts nx1 ny1 nx2 ny2 r).length = (ny1 + 1) * (nx1 + 1) + ny2 * (nx2 + 1) := by
  simp [pts, upperPoints_length, lowerPoints_length]

theorem upperEls_length (q : Bool) (nx1 ny1 : ℕ) :
    (upperEls q nx1 ny1).length = ny1 * (nx1 * (cond q 1 2)) := by
  cases q <;>
    simp [upperEls, List.length_flatMap, Function.comp_def, List.map_const',
      List.sum_replicate, smul_eq_mul, mul_comm]

theorem connectorEls_length (q : Bool) (nx1 ny1 : ℕ) :
    (connectorEls q nx1 ny1).length = nx1 * (cond q 1 2) := by
  cases q <;>
    simp [connectorEls, List.length_flatMap, Function.comp_def, List.map_const',
      List.sum_replicate, smul_eq_mul, mul_comm]

theorem lowerEls_length (q : Bool) (nx1 ny1 nx2 ny2 : ℕ) :
    (lowerEls q nx1 ny1 nx2 ny2).length = (ny2 - 1) * (nx2 * (cond q 1 2)) := by
  cases q <;>
    simp [lowerEls, List.length_flatMap, Function.comp_def, List.map_const',
      List.sum_replicate, smul_eq_mul, mul_comm]

theorem filter_tagmap (l : List (ℕ × ℕ)) (k t : ℕ) :
    (l.map (fun e => (e, k))).filter (fun e => e.2 == t)
      = if k = t then l.map (fun e => (e, k)) else [] := by
  induction l with
  | nil => simp
  | cons x xs ih =>
      simp only [List.map_cons, List.filter_cons, ih]
      by_cases h : k = t
      · subst h
        simp
      · simp [h]

theorem tagSegs_one (nx1 ny1 nx2 ny2 : ℕ) :
    tagSegs nx1 ny1 nx2 ny2 1 = segs1 nx1 := by
  simp [tagSegs, el1d, List.filter_append, filter_tagmap, Function.comp_def]

theorem tagSegs_two (nx1 ny1 nx2 ny2 : ℕ) :
    tagSegs nx1 ny1 nx2 ny2 2 = segs2 nx1 ny1 := by
  simp [tagSegs, el1d, List.filter_append, filter_tagmap, Function.comp_def]

theorem tagSegs_three (nx1 ny1 nx2 ny2 : ℕ) :
    tagSegs nx1 ny1 nx2 ny2 3 = segs3 nx1 ny1 := by
  simp [tagSegs, el1d, List.filter_append, filter_tagmap, Function.comp_def]

theorem tagSegs_four (nx1 ny1 nx2 ny2 : ℕ) :
    tagSegs nx1 ny1 nx2 ny2 4 = segs4 nx1 ny1 := by
  simp [tagSegs, el1d, List.filter_append, filter_tagmap, Function.comp_def]

theorem tagSegs_five (nx1 ny1 nx2 ny2 : ℕ) :
    tagSegs nx1 ny1 nx2 ny2 5 = segs5 nx1 ny1 nx2 := by
  simp [tagSegs, el1d, List.filter_append, filter_tagmap, Function.comp_def]

theorem tagSegs_six (nx1 ny1 nx2 ny2 : ℕ) :
    tagSegs nx1 ny1 nx2 ny2 6 = segs6 nx1 ny1 nx2 ny2 := by
  simp [tagSegs, el1d, List.filter_append, filter_tagmap, Function.comp_def]

theorem tagSegs_seven (nx1 ny1 nx2 ny2 : ℕ) :
    tagSegs nx1 ny1 nx2 ny2 7 = segs7 nx1 ny1 nx2 ny2 := by
  simp [tagSegs, el1d, List.filter_append, filter_tagmap, Function.comp_def]

theorem tagSegs_eight (nx1 ny1 nx2 ny2 : ℕ) :
    tagSegs nx1 ny1 nx2 ny2 8 = segs8 nx1 ny1 nx2 ny2 := by
  simp [tagSegs, el1d, List.filter_append, filter_tagmap, Function.comp_def]

/-- C5: for every `nx1, ny1, nx2, ny2 ≥ 1` and any attachment fraction,
the total number of points added to the mesh equals
`(ny1+1)*(nx1+1) + ny2*(nx2+1)`. -/
theorem point_count_c5 (nx1 ny1 nx2 ny2 : ℕ) (r : ℚ) (h1 : 1 ≤ nx1)
    (h2 : 1 ≤ ny1) (h3 : 1 ≤ nx2) (h4 : 1 ≤ ny2) :
    (pts nx1 ny1 nx2 ny2 r).length = (ny1 + 1) * (nx1 + 1) + ny2 * (nx2 + 1) :=
  pts_length nx1 ny1 nx2 ny2 r

/-- Witness for C5 at the default parameters. -/
theorem point_count_c5_witness :
    (1 ≤ 4)
      ∧ (pts 4 4 4 4 (1 / 2)).length = (4 + 1) * (4 + 1) + 4 * (4 + 1) :=
  ⟨by decide,
   point_count_c5 4 4 4 4 (1 / 2) (by decide) (by decide) (by decide)
     (by decide)⟩

/-- C6: for all valid parameters (`≥ 1`, `ny1` even) the number of 2D face
elements is `nx1*ny1 + nx1 + nx2*(ny2-1)` when `quads = true` and exactly
double that when `quads = false`. -/
theorem face_count_c6 (nx1 ny1 nx2 ny2 : ℕ) (h1 : 1 ≤ nx1) (h2 : 1 ≤ ny1)
    (h3 : 1 ≤ nx2) (h4 : 1 ≤ ny2) (h5 : 2 ∣ ny1) :
    (el2d true nx1 ny1 nx2 ny2).length = nx1 * ny1 + nx1 + nx2 * (ny2 - 1)
      ∧ (el2d false nx1 ny1 nx2 ny2).length
          = 2 * (nx1 * ny1 + nx1 + nx2 * (ny2 - 1)) := by
  constructor <;>
    · simp [el2d, upperEls_length, connectorEls_length, lowerEls_length]
      ring

/-- Witness for C6 at the default parameters. -/
theorem face_count_c6_witness :
    (2 ∣ 4)
      ∧ ((el2d true 4 4 4 4).length = 4 * 4 + 4 + 4 * (4 - 1)
          ∧ (el2d false 4 4 4 4).length = 2 * (4 * 4 + 4 + 4 * (4 - 1))) :=
  ⟨by decide,
   face_count_c6 4 4 4 4 (by decide) (by decide) (by decide) (by decide)
     (by decide)⟩

/-- C3 counterexample: at the default parameters the mesh receives 32
boundary elements, not the `2*nx1 + 2*ny1 + nx2 + ny2 + nx2 = 28` the
claim asserts. -/
theorem boundary_count_c3_cex :
    (el1d 4 4 4 4).length ≠ 2 * 4 + 2 * 4 + 4 + 4 + 4 := by decide

/-- C3 amended: the total number of 1D boundary elements equals
`2*nx1 + 2*ny1 + nx2 + ny2 + nx2 + ny2` (the stated formula misses the
second `ny2`), distributed over the boundary indices as `nx1, ny1, nx1,
ny1, nx2, ny2, nx2, ny2`. -/
theorem boundary_count_c3 (nx1 ny1 nx2 ny2 : ℕ) (h1 : 1 ≤ nx1)
    (h2 : 1 ≤ ny1) (h3 : 1 ≤ nx2) (h4 : 1 ≤ ny2) (h5 : 2 ∣ ny1) :
    (el1d nx1 ny1 nx2 ny2).length = 2 * nx1 + 2 * ny1 + nx2 + ny2 + nx2 + ny2
      ∧ (tagSegs nx1 ny1 nx2 ny2 1).length = nx1
      ∧ (tagSegs nx1 ny1 nx2 ny2 2).length = ny1
      ∧ (tagSegs nx1 ny1 nx2 ny2 3).length = nx1
      ∧ (tagSegs nx1 ny1 nx2 ny2 4).length = ny1
      ∧ (tagSegs nx1 ny1 nx2 ny2 5).length = nx2
      ∧ (tagSegs nx1 ny1 nx2 ny2 6).length = ny2
      ∧ (tagSegs nx1 ny1 nx2 ny2 7).length = nx2
      ∧ (tagSegs nx1 ny1 nx2 ny2 8).length = ny2 := by
  refine ⟨?_, ?_, ?_, ?_, ?_, ?_, ?_, ?_, ?_⟩
  · simp [el1d, segs1, segs2, segs3, segs4, segs5, segs6, segs7, segs8]
    omega
  · simp [tagSegs_one, segs1]
  · simp [tagSegs_two, segs2]
  · simp [tagSegs_three, segs3]
  · simp [tagSegs_four, segs4]
  · simp [tagSegs_five, segs5]
  · rw [tagSegs_six]
    simp [segs6]
    omega
  · simp [tagSegs_seven, segs7]
  · rw [tagSegs_eight]
    simp [segs8]
    omega

/-- Witness for the amended C3 at the default parameters. -/
theorem boundary_count_c3_witness :
    (2 ∣ 4)
      ∧ ((el1d 4 4 4 4).length = 2 * 4 + 2 * 4 + 4 + 4 + 4 + 4
          ∧ (tagSegs 4 4 4 4 1).length = 4
          ∧ (tagSegs 4 4 4 4 2).length = 4
          ∧ (tagSegs 4 4 4 4 3).length = 4
          ∧ (tagSegs 4 4 4 4 4).length = 4
          ∧ (tagSegs 4 4 4 4 5).length = 4
          ∧ (tagSegs 4 4 4 4 6).length = 4
          ∧ (tagSegs 4 4 4 4 7).length = 4
          ∧ (tagSegs 4 4 4 4 8).length = 4) :=
  ⟨by decide,
   boundary_count_c3 4 4 4 4 (by decide) (by decide) (by decide) (by decide)
     (by decide)⟩

/-- C10: two calls that agree on `quads, nx1, ny1, nx2, ny2` and differ
only in the attachment fraction produce identical 2D element index
tuples, identical tagged 1D element index tuples, and identical tag
names; the fraction only moves the y-coordinate of the lower-patch
points (x- and z-coordinates agree pointwise). -/
theorem ratio_independence_c10 (q : Bool) (nx1 ny1 nx2 ny2 : ℕ) (r1 r2 : ℚ) :
    (MakeTStructureMesh q nx1 ny1 nx2 ny2 r1).2
        = (MakeTStructureMesh q nx1 ny1 nx2 ny2 r2).2
      ∧ (pts nx1 ny1 nx2 ny2 r1).map (fun p => (p.1, p.2.2))
          = (pts nx1 ny1 nx2 ny2 r2).map (fun p => (p.1, p.2.2)) := by
  refine ⟨rfl, ?_⟩
  simp [pts, upperPoints, lowerPoints, List.map_flatMap, List.map_map,
    Function.comp_def]

/-- C2 (code bug evaluation): at `quads = false`, `nx1 = ny1 = nx2 = ny2
= 2`, the connector strip emits the triangles `[3,4,6], [4,7,6], [4,5,7],
[5,8,7]`, all of whose vertices lie strictly below `base1 = 9`, the first
index of the lower patch: the `quads = false` branch never references the
lower grid's first stored row, it duplicates the upper-grid triangles of
the seam row instead.  With `quads = true` the connector does reach the
lower block. -/
theorem connector_c2_bug_eval :
    connectorEls false 2 2 = [[3, 4, 6], [4, 7, 6], [4, 5, 7], [5, 8, 7]]
      ∧ (∀ el ∈ connectorEls false 2 2, ∀ p ∈ el, p < (2 + 1) * (2 + 1))
      ∧ (∃ el ∈ connectorEls true 2 2, ∃ p ∈ el, (2 + 1) * (2 + 1) ≤ p) := by
  decide

/-- C7 counterexample: for `nx1 = ny1 = 4`, the first cell has corner
indices `{0, 1, 6, 5}` in the order `(base, base+1, base+nx1+2,
base+nx1+1)`.  A split along the diagonal from the first corner `0` to
the third corner `6` would put both `0` and `6` in each triangle, but
the first triangle emitted is `[0, 1, 5]`, which does not contain `6`. -/
theorem diagonal_c7_cex :
    (upperEls false 4 4)[0]? = some [0, 1, 5] ∧ (6 : ℕ) ∉ [0, 1, 5] := by
  decide

/-- C7 amended: when `quads = false` every upper-grid cell with corners
`{base, base+1, base+nx1+2, base+nx1+1}` is split into the triangles
`[base, base+1, base+nx1+1]` and `[base+1, base+nx1+2, base+nx1+1]`, i.e.
along the diagonal from the cell's second listed corner `base+1` to its
fourth listed corner `base+nx1+1` (not from the first to the third). -/
theorem diagonal_c7 (nx1 ny1 : ℕ) (h1 : 1 ≤ nx1) (h2 : 1 ≤ ny1) :
    ∀ i j : ℕ, i < ny1 → j < nx1 →
      [i * (nx1 + 1) + j, i * (nx1 + 1) + j + 1,
          i * (nx1 + 1) + j + nx1 + 1] ∈ upperEls false nx1 ny1
        ∧ [i * (nx1 + 1) + j + 1, i * (nx1 + 1) + j + nx1 + 2,
            i * (nx1 + 1) + j + nx1 + 1] ∈ upperEls false nx1 ny1 := by
  intro i j hi hj
  constructor <;>
  · simp only [upperEls, List.mem_flatMap, List.mem_range]
    refine ⟨i, hi, j, hj, ?_⟩
    simp

/-- Witness for the amended C7 at `nx1 = ny1 = 2`, cell `(0, 0)`. -/
theorem diagonal_c7_witness :
    (1 ≤ 2)
      ∧ ([0, 1, 3] ∈ upperEls false 2 2 ∧ [1, 4, 3] ∈ upperEls false 2 2) :=
  ⟨by decide, diagonal_c7 2 2 (by decide) (by decide) 0 0 (by decide)
    (by decide)⟩
theorem mul_succ_le (a b k : ℕ) (h : a + 1 ≤ b) : a * k + k ≤ b * k := by
  have h1 : (a + 1) * k ≤ b * k := Nat.mul_le_mul_right _ h
  have h2 : (a + 1) * k = a * k + k := by ring
  omega

theorem upperEls_bound (q : Bool) (n1 y1 L : ℕ)
    (hL : (y1 + 1) * (n1 + 1) ≤ L) :
    ∀ el ∈ upperEls q n1 y1, ∀ p ∈ el, p < L := by
  intro el hel p hp
  have e1 : (y1 + 1) * (n1 + 1) = y1 * (n1 + 1) + (n1 + 1) := by ring
  cases q
  · simp only [upperEls, List.mem_flatMap, List.mem_range, Bool.false_eq_true,
      if_false, List.mem_cons, List.not_mem_nil, or_false] at hel
    obtain ⟨i, hi, j, hj, hel⟩ := hel
    have hA := mul_succ_le i y1 (n1 + 1) hi
    rcases hel with rfl | rfl <;>
      simp only [List.mem_cons, List.not_mem_nil, or_false] at hp <;> omega
  · simp only [upperEls, List.mem_flatMap, List.mem_range, if_true,
      List.mem_cons, List.not_mem_nil, or_false] at hel
    obtain ⟨i, hi, j, hj, rfl⟩ := hel
    have hA := mul_succ_le i y1 (n1 + 1) hi
    simp only [List.mem_cons, List.not_mem_nil, or_false] at hp
    omega

theorem connectorEls_bound (q : Bool) (n1 y1 y2 L : ℕ) (hy : 1 ≤ y1)
    (hy2 : 1 ≤ y2)
    (hL : (y1 + 1) * (n1 + 1) + y2 * (n1 + 1) ≤ L) :
    ∀ el ∈ connectorEls q n1 y1, ∀ p ∈ el, p < L := by
  intro el hel p hp
  have e1 : (y1 + 1) * (n1 + 1) = y1 * (n1 + 1) + (n1 + 1) := by ring
  have hS2 : y1 / 2 * (n1 + 1) + (n1 + 1) ≤ y1 * (n1 + 1) :=
    mul_succ_le (y1 / 2) y1 (n1 + 1) (by omega)
  have hY : 1 * (n1 + 1) ≤ y2 * (n1 + 1) := Nat.mul_le_mul_right _ hy2
  cases q
  · simp only [connectorEls, List.mem_flatMap, List.mem_range,
      Bool.false_eq_true, if_false, List.mem_cons, List.not_mem_nil,
      or_false] at hel
    obtain ⟨j, hj, hel⟩ := hel
    rcases hel with rfl | rfl <;>
      simp only [List.mem_cons, List.not_mem_nil, or_false] at hp <;> omega
  · simp only [connectorEls, List.mem_flatMap, List.mem_range, if_true,
      List.mem_cons, List.not_mem_nil, or_false] at hel
    obtain ⟨j, hj, rfl⟩ := hel
    simp only [List.mem_cons, List.not_mem_nil, or_false] at hp
    omega

theorem lowerEls_bound (q : Bool) (n1 y1 n2 y2 L : ℕ)
    (hL : (y1 + 1) * (n1 + 1) + y2 * (n2 + 1) ≤ L) :
    ∀ el ∈ lowerEls q n1 y1 n2 y2, ∀ p ∈ el, p < L := by
  intro el hel p hp
  cases q
  · simp only [lowerEls, List.mem_flatMap, List.mem_range, List.mem_range'_1,
      Bool.false_eq_true, if_false, List.mem_cons, List.not_mem_nil,
      or_false] at hel
    obtain ⟨i, ⟨hi1, hi2⟩, j, hj, hel⟩ := hel
    have hA := mul_succ_le (i - 1) (y2 - 1) (n2 + 1) (by omega)
    have e2 : (y2 - 1) * (n2 + 1) + (n2 + 1) = ((y2 - 1) + 1) * (n2 + 1) := by
      ring
    have e3 : (y2 - 1) + 1 = y2 := by omega
    rw [e3] at e2
    rcases hel with rfl | rfl <;>
      simp only [List.mem_cons, List.not_mem_nil, or_false] at hp <;> omega
  · simp only [lowerEls, List.mem_flatMap, List.mem_range, List.mem_range'_1,
      if_true, List.mem_cons, List.not_mem_nil, or_false] at hel
    obtain ⟨i, ⟨hi1, hi2⟩, j, hj, rfl⟩ := hel
    have hA := mul_succ_le (i - 1) (y2 - 1) (n2 + 1) (by omega)
    have e2 : (y2 - 1) * (n2 + 1) + (n2 + 1) = ((y2 - 1) + 1) * (n2 + 1) := by
      ring
    have e3 : (y2 - 1) + 1 = y2 := by omega
    rw [e3] at e2
    simp only [List.mem_cons, List.not_mem_nil, or_false] at hp
    omega

theorem el1d_bound (n1 y1 y2 L : ℕ) (hy1 : 1 ≤ y1) (hy2 : 1 ≤ y2)
    (hL : (y1 + 1) * (n1 + 1) + y2 * (n1 + 1) ≤ L) :
    ∀ e ∈ el1d n1 y1 n1 y2, e.1.1 < L ∧ e.1.2 < L := by
  intro e he
  have e1 : (y1 + 1) * (n1 + 1) = y1 * (n1 + 1) + (n1 + 1) := by ring
  have hS2 : y1 / 2 * (n1 + 1) + (n1 + 1) ≤ y1 * (n1 + 1) :=
    mul_succ_le (y1 / 2) y1 (n1 + 1) (by omega)
  have hY : 1 * (n1 + 1) ≤ y2 * (n1 + 1) := Nat.mul_le_mul_right _ hy2
  have e4 : (y2 - 1) * (n1 + 1) + (n1 + 1) = y2 * (n1 + 1) := by
    have e2 : (y2 - 1) * (n1 + 1) + (n1 + 1) = ((y2 - 1) + 1) * (n1 + 1) := by
      ring
    have e3 : (y2 - 1) + 1 = y2 := by omega
    rw [e2, e3]
  simp only [el1d, List.mem_append] at he
  rcases he with ((((((h | h) | h) | h) | h) | h) | h) | h
  · obtain ⟨a, ha, rfl⟩ := List.mem_map.1 h
    simp only [segs1, List.mem_map, List.mem_range] at ha
    obtain ⟨i, hi, rfl⟩ := ha
    exact ⟨by dsimp only; omega, by dsimp only; omega⟩
  · obtain ⟨a, ha, rfl⟩ := List.mem_map.1 h
    simp only [segs2, List.mem_map, List.mem_range] at ha
    obtain ⟨i, hi, rfl⟩ := ha
    have hA := mul_succ_le i y1 (n1 + 1) hi
    have hB := mul_succ_le (i + 1) (y1 + 1) (n1 + 1) (by omega)
    exact ⟨by dsimp only; omega, by dsimp only; omega⟩
  · obtain ⟨a, ha, rfl⟩ := List.mem_map.1 h
    simp only [segs3, List.mem_map, List.mem_range] at ha
    obtain ⟨i, hi, rfl⟩ := ha
    exact ⟨by dsimp only; omega, by dsimp only; omega⟩
  · obtain ⟨a, ha, rfl⟩ := List.mem_map.1 h
    simp only [segs4, List.mem_map, List.mem_range] at ha
    obtain ⟨i, hi, rfl⟩ := ha
    have hA := mul_succ_le i y1 (n1 + 1) hi
    have hB := mul_succ_le (i + 1) (y1 + 1) (n1 + 1) (by omega)
    exact ⟨by dsimp only; omega, by dsimp only; omega⟩
  · obtain ⟨a, ha, rfl⟩ := List.mem_map.1 h
    simp only [segs5, List.mem_map, List.mem_range] at ha
    obtain ⟨i, hi, rfl⟩ := ha
    exact ⟨by dsimp only; omega, by dsimp only; omega⟩
  · obtain ⟨a, ha, rfl⟩ := List.mem_map.1 h
    simp only [segs6, List.mem_cons, List.mem_map, List.mem_range] at ha
    rcases ha with rfl | ⟨i, hi, rfl⟩
    · exact ⟨by dsimp only; omega, by dsimp only; omega⟩
    · have hA1 := mul_succ_le i y2 (n1 + 1) (by omega)
      have hA2 := mul_succ_le (i + 1) y2 (n1 + 1) (by omega)
      exact ⟨by dsimp only; omega, by dsimp only; omega⟩
  · obtain ⟨a, ha, rfl⟩ := List.mem_map.1 h
    simp only [segs7, List.mem_map, List.mem_range] at ha
    obtain ⟨i, hi, rfl⟩ := ha
    exact ⟨by dsimp only; omega, by dsimp only; omega⟩
  · obtain ⟨a, ha, rfl⟩ := List.mem_map.1 h
    simp only [segs8, List.mem_append, List.mem_map, List.mem_range,
      List.mem_cons, List.not_mem_nil, or_false] at ha
    rcases ha with ⟨i, hi, rfl⟩ | rfl
    · have hA1 := mul_succ_le i y2 (n1 + 1) (by omega)
      have hA2 := mul_succ_le (i + 1) y2 (n1 + 1) (by omega)
      exact ⟨by dsimp only; omega, by dsimp only; omega⟩
    · exact ⟨by dsimp only; omega, by dsimp only; omega⟩

/-- C9: for every quad flag, every attachment fraction, and all
parameters `≥ 1` with `nx1 = nx2`, every index used by the 2D face
elements (upper patch, connector strip, lower patch) and by the 1D
boundary elements of all eight tags is strictly below the length of the
point list `pids`: no list access is out of bounds. -/
theorem bounds_c9 (q : Bool) (nx1 ny1 nx2 ny2 : ℕ) (r : ℚ) (h1 : 1 ≤ nx1)
    (h2 : 1 ≤ ny1) (h3 : 1 ≤ nx2) (h4 : 1 ≤ ny2) (h5 : nx1 = nx2) :
    (∀ el ∈ el2d q nx1 ny1 nx2 ny2, ∀ p ∈ el,
        p < (pts nx1 ny1 nx2 ny2 r).length)
      ∧ (∀ e ∈ el1d nx1 ny1 nx2 ny2,
          e.1.1 < (pts nx1 ny1 nx2 ny2 r).length
            ∧ e.1.2 < (pts nx1 ny1 nx2 ny2 r).length) := by
  subst h5
  rw [pts_length]
  constructor
  · intro el hel p hp
    simp only [el2d, List.mem_append] at hel
    rcases hel with (hel | hel) | hel
    · exact upperEls_bound q nx1 ny1 _ (Nat.le_add_right _ _) el hel p hp
    · exact connectorEls_bound q nx1 ny1 ny2 _ h2 h4 (le_refl _) el hel p hp
    · exact lowerEls_bound q nx1 ny1 nx1 ny2 _ (le_refl _) el hel p hp
  · intro e he
    exact el1d_bound nx1 ny1 ny2 _ h2 h4 (le_refl _) e he

/-- Witness for C9 at `quads = true`, all parameters 2, fraction 1/2,
checked on the first upper quad `[0, 1, 4, 3]` and the first boundary
segment `((0, 1), 1)`. -/
theorem bounds_c9_witness :
    (1 ≤ 2)
      ∧ 4 < (pts 2 2 2 2 (1 / 2)).length
      ∧ (((0, 1), 1).1.1 < (pts 2 2 2 2 (1 / 2)).length
          ∧ ((0, 1), 1).1.2 < (pts 2 2 2 2 (1 / 2)).length) :=
  ⟨by decide,
   (bounds_c9 true 2 2 2 2 (1 / 2) (by decide) (by decide) (by decide)
       (by decide) rfl).1 [0, 1, 4, 3] (by decide) 4 (by decide),
   (bounds_c9 true 2 2 2 2 (1 / 2) (by decide) (by decide) (by decide)
       (by decide) rfl).2 ((0, 1), 1) (by decide)⟩

theorem getElem_grid {α : Type} (k : ℕ) :
    ∀ (m : ℕ) (f : ℕ → ℕ → α) (i j : ℕ), i < m → j < k →
      ((List.range m).flatMap (fun a => (List.range k).map (f a)))[i * k + j]?
        = some (f i j) := by
  intro m
  induction m with
  | zero => intro f i j hi hj; exact absurd hi (Nat.not_lt_zero i)
  | succ m ih =>
      intro f i j hi hj
      rw [List.range_succ_eq_map, List.flatMap_cons, List.flatMap_map]
      have hlen : ((List.range k).map (f 0)).length = k := by simp
      cases i with
      | zero =>
          rw [Nat.zero_mul, Nat.zero_add, List.getElem?_append_left (by omega),
            List.getElem?_map, List.getElem?_range hj]
          rfl
      | succ i =>
          have e : (i + 1) * k = i * k + k := by ring
          rw [List.getElem?_append_right (by omega)]
          have e2 : (i + 1) * k + j - ((List.range k).map (f 0)).length
              = i * k + j := by omega
          rw [e2]
          exact ih (fun a => f (a + 1)) i j (by omega) hj

theorem upperPoints_getElem (nx1 ny1 i j : ℕ) (hi : i ≤ ny1) (hj : j ≤ nx1) :
    (upperPoints nx1 ny1)[i * (nx1 + 1) + j]?
      = some ((j : ℚ) / nx1, (i : ℚ) / ny1, 0) := by
  show ((List.range (ny1 + 1)).flatMap (fun a : ℕ => (List.range (nx1 + 1)).map
      (fun b : ℕ => ((b : ℚ) / nx1, (a : ℚ) / ny1, 0))))[i * (nx1 + 1) + j]?
    = some ((j : ℚ) / nx1, (i : ℚ) / ny1, 0)
  exact getElem_grid (nx1 + 1) (ny1 + 1)
    (fun a b => ((b : ℚ) / nx1, (a : ℚ) / ny1, 0)) i j
    (show i < ny1 + 1 by omega) (show j < nx1 + 1 by omega)

theorem pts_getElem_upper (nx1 ny1 nx2 ny2 i j : ℕ) (r : ℚ) (hi : i ≤ ny1)
    (hj : j ≤ nx1) :
    (pts nx1 ny1 nx2 ny2 r)[i * (nx1 + 1) + j]?
      = some ((j : ℚ) / nx1, (i : ℚ) / ny1, 0) := by
  rw [pts, List.getElem?_append_left, upperPoints_getElem nx1 ny1 i j hi hj]
  rw [upperPoints_length]
  have hA := mul_succ_le i (ny1 + 1) (nx1 + 1) (by omega)
  omega

/-- C1 counterexample: call `MakeTStructureMesh` with the default grid and
`ratio = 0`.  The first connector quad is `[10, 11, 26, 25]`, so the
connector attaches to the upper grid at point 10, whose height is
`y = 1/2`, not `y = ratio = 0`: the upper attachment row does not lie at
height `ratio`. -/
theorem seam_c1_cex :
    (connectorEls true 4 4)[0]? = some [10, 11, 26, 25]
      ∧ ((pts 4 4 4 4 0)[10]?).map (fun p => p.2.1) = some (1 / 2 : ℚ)
      ∧ (1 / 2 : ℚ) ≠ 0 := by
  refine ⟨by decide, ?_, by norm_num⟩
  rw [show (10 : ℕ) = 2 * (4 + 1) + 0 from rfl,
    pts_getElem_upper 4 4 4 4 2 0 0 (by omega) (by omega)]
  simp only [Option.map_some', Option.some.injEq]
  norm_num

/-- C1 amended: the attachment fraction gives the height of the
lower-patch rows (every lower point has `y = ratio`, so `ratio = 0`
places the lower grid's rows at `y = 0`), while the upper-grid row to
which the connector strip attaches is row `ny1/2`, whose height is
`(ny1/2)/ny1 = 1/2` for even `ny1` — independent of the fraction. -/
theorem seam_c1 (nx1 ny1 nx2 ny2 : ℕ) (r : ℚ) (h1 : 1 ≤ nx1) (h2 : 1 ≤ ny1)
    (h3 : 1 ≤ nx2) (h4 : 1 ≤ ny2) (h5 : 2 ∣ ny1) :
    (∀ p ∈ lowerPoints nx2 ny2 r, p.2.1 = r)
      ∧ (∀ j, j ≤ nx1 →
          ((pts nx1 ny1 nx2 ny2 r)[ny1 / 2 * (nx1 + 1) + j]?).map
              (fun p => p.2.1) = some (1 / 2 : ℚ))
      ∧ (∀ el ∈ connectorEls true nx1 ny1, ∃ j < nx1,
          el = [ny1 / 2 * (nx1 + 1) + j, ny1 / 2 * (nx1 + 1) + j + 1,
            (ny1 + 1) * (nx1 + 1) + j + 1, (ny1 + 1) * (nx1 + 1) + j]) := by
  refine ⟨?_, ?_, ?_⟩
  · intro p hp
    simp only [lowerPoints, List.mem_flatMap, List.mem_map, List.mem_range,
      List.mem_range'_1] at hp
    obtain ⟨i, hi, j, hj, rfl⟩ := hp
    rfl
  · intro j hj
    obtain ⟨m, rfl⟩ := h5
    rw [pts_getElem_upper nx1 (2 * m) nx2 ny2 (2 * m / 2) j r (by omega) hj]
    have hm : 2 * m / 2 = m := by omega
    rw [hm]
    have hm0 : (m : ℚ) ≠ 0 := Nat.cast_ne_zero.mpr (by omega)
    simp only [Option.map_some', Option.some.injEq]
    push_cast
    field_simp
    ring
  · intro el hel
    simp only [connectorEls, List.mem_flatMap, List.mem_range, if_true,
      List.mem_cons, List.not_mem_nil, or_false] at hel
    obtain ⟨j, hj, rfl⟩ := hel
    exact ⟨j, hj, rfl⟩

/-- Witness for the amended C1 at the default grid with fraction 0:
the seam-row point at grid position `(ny1/2, 0)` has height 1/2. -/
theorem seam_c1_witness :
    (2 ∣ 4)
      ∧ ((pts 4 4 4 4 0)[4 / 2 * (4 + 1) + 0]?).map (fun p => p.2.1)
          = some (1 / 2 : ℚ) :=
  ⟨by decide, (seam_c1 4 4 4 4 0 (by decide) (by decide) (by decide)
      (by decide) (by decide)).2.1 0 (by decide)⟩

/-- C4 counterexample: at the default parameters the lower patch
contributes `ny2*(nx2+1) = 20` points, not the claimed
`(ny2+1)*(nx2+1) = 25`. -/
theorem point_seq_c4_cex :
    (lowerPoints 4 4 (1 / 2)).length ≠ (4 + 1) * (4 + 1) := by
  rw [lowerPoints_length]
  decide

/-- C4 amended: the point sequence is the upper patch's
`(ny1+1)*(nx1+1)` grid points in the unit square at `z = 0`, followed by
the lower patch's `ny2*(nx2+1)` points (rows `i = 1..ny2` only, the row
`i = 0` being shared with the seam), each at `y = ratio` with
`z = -i/ny2 ∈ [-1, 0)`. -/
theorem point_seq_c4 (nx1 ny1 nx2 ny2 : ℕ) (r : ℚ) (h1 : 1 ≤ nx1)
    (h2 : 1 ≤ ny1) (h3 : 1 ≤ nx2) (h4 : 1 ≤ ny2) :
    pts nx1 ny1 nx2 ny2 r = upperPoints nx1 ny1 ++ lowerPoints nx2 ny2 r
      ∧ (upperPoints nx1 ny1).length = (ny1 + 1) * (nx1 + 1)
      ∧ (∀ p ∈ upperPoints nx1 ny1,
          0 ≤ p.1 ∧ p.1 ≤ 1 ∧ 0 ≤ p.2.1 ∧ p.2.1 ≤ 1 ∧ p.2.2 = 0)
      ∧ (lowerPoints nx2 ny2 r).length = ny2 * (nx2 + 1)
      ∧ (∀ p ∈ lowerPoints nx2 ny2 r,
          0 ≤ p.1 ∧ p.1 ≤ 1 ∧ p.2.1 = r ∧ -1 ≤ p.2.2 ∧ p.2.2 < 0) := by
  refine ⟨rfl, upperPoints_length nx1 ny1, ?_,
    lowerPoints_length nx2 ny2 r, ?_⟩
  · intro p hp
    simp only [upperPoints, List.mem_flatMap, List.mem_map,
      List.mem_range] at hp
    obtain ⟨i, hi, j, hj, rfl⟩ := hp
    have hx1 : (0 : ℚ) < nx1 := by exact_mod_cast h1
    have hy1 : (0 : ℚ) < ny1 := by exact_mod_cast h2
    refine ⟨div_nonneg (by positivity) (by positivity), ?_,
      div_nonneg (by positivity) (by positivity), ?_, rfl⟩
    · rw [div_le_one hx1]
      exact_mod_cast (by omega : j ≤ nx1)
    · rw [div_le_one hy1]
      exact_mod_cast (by omega : i ≤ ny1)
  · intro p hp
    simp only [lowerPoints, List.mem_flatMap, List.mem_map, List.mem_range,
      List.mem_range'_1] at hp
    obtain ⟨i, ⟨hi1, hi2⟩, j, hj, rfl⟩ := hp
    have hx2 : (0 : ℚ) < nx2 := by exact_mod_cast h3
    have hy2 : (0 : ℚ) < ny2 := by exact_mod_cast h4
    have hipos : (0 : ℚ) < i := by exact_mod_cast hi1
    have hile : (i : ℚ) / ny2 ≤ 1 := by
      rw [div_le_one hy2]
      exact_mod_cast (by omega : i ≤ ny2)
    have hdpos : (0 : ℚ) < (i : ℚ) / ny2 := div_pos hipos hy2
    refine ⟨div_nonneg (by positivity) (by positivity), ?_, rfl, ?_, ?_⟩
    · rw [div_le_one hx2]
      exact_mod_cast (by omega : j ≤ nx2)
    · rw [neg_div]
      linarith
    · rw [neg_div]
      linarith

/-- Witness for the amended C4 at the default parameters. -/
theorem point_seq_c4_witness :
    (1 ≤ 4)
      ∧ pts 4 4 4 4 (1 / 2) = upperPoints 4 4 ++ lowerPoints 4 4 (1 / 2)
      ∧ (upperPoints 4 4).length = (4 + 1) * (4 + 1)
      ∧ (lowerPoints 4 4 (1 / 2)).length = 4 * (4 + 1) :=
  ⟨by decide,
   (point_seq_c4 4 4 4 4 (1 / 2) (by decide) (by decide) (by decide)
       (by decide)).1,
   (point_seq_c4 4 4 4 4 (1 / 2) (by decide) (by decide) (by decide)
       (by decide)).2.1,
   (point_seq_c4 4 4 4 4 (1 / 2) (by decide) (by decide) (by decide)
       (by decide)).2.2.2.1⟩

theorem norm2_le {x y : ℕ} (h : x ≤ y) : norm2 (x, y) = (x, y) := if_pos h

theorem norm2_gt {x y : ℕ} (h : ¬ x ≤ y) : norm2 (x, y) = (y, x) := if_neg h

theorem chainEdges_cons2 (a b : ℕ) (l : List ℕ) :
    chainEdges (a :: b :: l) = (a, b) :: chainEdges (b :: l) := rfl

theorem chainEdges_map (f : ℕ → ℕ) :
    ∀ (n a : ℕ), chainEdges ((List.range' a n).map f)
      = (List.range' a (n - 1)).map (fun i => (f i, f (i + 1)))
  | 0, a => rfl
  | 1, a => rfl
  | (n + 2), a => by
      have ih := chainEdges_map f (n + 1) (a + 1)
      have h1 : List.range' a (n + 2) = a :: (a + 1) :: List.range' (a + 2) n :=
        rfl
      have h2 : List.range' (a + 1) (n + 1) = (a + 1) :: List.range' (a + 2) n :=
        rfl
      have h3 : List.range' a (n + 2 - 1) = a :: List.range' (a + 1) n := rfl
      rw [h1, List.map_cons, List.map_cons, chainEdges_cons2, h3, List.map_cons]
      rw [h2, List.map_cons] at ih
      rw [ih]
      simp

theorem chainEdges_range_map (f : ℕ → ℕ) (n : ℕ) :
    chainEdges ((List.range n).map f)
      = (List.range (n - 1)).map (fun i => (f i, f (i + 1))) := by
  rw [List.range_eq_range', List.range_eq_range']
  exact chainEdges_map f n 0

theorem chainEdges_cons_map (a : ℕ) (f : ℕ → ℕ) (n : ℕ) (hn : 1 ≤ n) :
    chainEdges (a :: (List.range n).map f)
      = (a, f 0) :: chainEdges ((List.range n).map f) := by
  obtain ⟨m, rfl⟩ : ∃ m, n = m + 1 := ⟨n - 1, by omega⟩
  rw [List.range_succ_eq_map, List.map_cons]
  rfl

theorem chainEdges_length : ∀ l : List ℕ, (chainEdges l).length = l.length - 1
  | [] => rfl
  | [_] => rfl
  | a :: b :: rest => by
      rw [chainEdges_cons2, List.length_cons, chainEdges_length (b :: rest)]
      simp

theorem isChain_of_norm_eq (g : ℕ → ℕ × ℕ) (f : ℕ → ℕ) (n : ℕ)
    (hmono : ∀ i, f i < f (i + 1))
    (hg : ∀ i, i < n → norm2 (g i) = (f i, f (i + 1))) :
    isChain ((List.range n).map g) := by
  refine ⟨(List.range (n + 1)).map f, ?_, ?_⟩
  · exact List.Nodup.map (strictMono_nat_of_lt_succ hmono).injective
      (List.nodup_range _)
  · rw [chainEdges_range_map]
    have e : n + 1 - 1 = n := by omega
    rw [e, List.map_map, List.map_map]
    have hpt : ∀ i ∈ List.range n,
        (norm2 ∘ g) i = (norm2 ∘ fun i => (f i, f (i + 1))) i := by
      intro i hi
      rw [List.mem_range] at hi
      simp only [Function.comp_apply]
      rw [hg i hi, norm2_le (Nat.le_of_lt (hmono i))]
    rw [List.map_congr_left hpt]

theorem chain_segs1 (n1 : ℕ) : isChain (segs1 n1) := by
  unfold segs1
  refine isChain_of_norm_eq _ (fun i => i) n1 ?_ ?_
  · intro i
    dsimp only
    omega
  · intro i _
    dsimp only
    exact norm2_le (by omega)

theorem chain_segs2 (n1 y1 : ℕ) : isChain (segs2 n1 y1) := by
  unfold segs2
  refine isChain_of_norm_eq _ (fun i => i * (n1 + 1) + n1) y1 ?_ ?_
  · intro i
    dsimp only
    have := mul_succ_le i (i + 1) (n1 + 1) (le_refl _)
    omega
  · intro i _
    dsimp only
    have := mul_succ_le i (i + 1) (n1 + 1) (le_refl _)
    exact norm2_le (by omega)

theorem chain_segs3 (n1 y1 : ℕ) : isChain (segs3 n1 y1) := by
  unfold segs3
  refine isChain_of_norm_eq _ (fun i => y1 * (n1 + 1) + i) n1 ?_ ?_
  · intro i
    dsimp only
    omega
  · intro i _
    dsimp only
    rw [norm2_gt (by omega)]
    rfl

theorem chain_segs4 (n1 y1 : ℕ) : isChain (segs4 n1 y1) := by
  unfold segs4
  refine isChain_of_norm_eq _ (fun i => i * (n1 + 1)) y1 ?_ ?_
  · intro i
    dsimp only
    have := mul_succ_le i (i + 1) (n1 + 1) (le_refl _)
    omega
  · intro i _
    dsimp only
    have := mul_succ_le i (i + 1) (n1 + 1) (le_refl _)
    rw [norm2_gt (by omega)]

theorem chain_segs5 (n1 y1 n2 : ℕ) : isChain (segs5 n1 y1 n2) := by
  unfold segs5
  refine isChain_of_norm_eq _ (fun i => y1 / 2 * (n1 + 1) + i) n2 ?_ ?_
  · intro i
    dsimp only
    omega
  · intro i _
    dsimp only
    rw [norm2_le (by omega)]
    rfl

theorem chain_segs7 (n1 y1 n2 y2 : ℕ) : isChain (segs7 n1 y1 n2 y2) := by
  unfold segs7
  refine isChain_of_norm_eq _
    (fun i => (y2 - 1) * (n2 + 1) + i + (y1 + 1) * (n1 + 1)) n2 ?_ ?_
  · intro i
    dsimp only
    omega
  · intro i _
    dsimp only
    rw [norm2_le (by omega)]
    rfl

theorem isChain_cons_of_norm_eq (h0 : ℕ × ℕ) (g : ℕ → ℕ × ℕ) (f : ℕ → ℕ)
    (a n : ℕ) (hn : 1 ≤ n)
    (hmono : ∀ i, f i < f (i + 1))
    (ha : a < f 0)
    (h0eq : norm2 h0 = (a, f 0))
    (hg : ∀ i, i < n - 1 → norm2 (g i) = (f i, f (i + 1))) :
    isChain (h0 :: (List.range (n - 1)).map g) := by
  have hf : StrictMono f := strictMono_nat_of_lt_succ hmono
  refine ⟨a :: (List.range n).map f, ?_, ?_⟩
  · rw [List.nodup_cons]
    refine ⟨?_, List.Nodup.map hf.injective (List.nodup_range _)⟩
    intro hmem
    obtain ⟨i, _, heq⟩ := List.mem_map.1 hmem
    have h0i : f 0 ≤ f i := hf.monotone (Nat.zero_le i)
    omega
  · rw [chainEdges_cons_map _ _ _ hn, chainEdges_range_map]
    rw [List.map_cons, List.map_cons, List.map_map, List.map_map]
    rw [h0eq, norm2_le (Nat.le_of_lt ha)]
    have hpt : ∀ i ∈ List.range (n - 1),
        (norm2 ∘ g) i = (norm2 ∘ fun i => (f i, f (i + 1))) i := by
      intro i hi
      rw [List.mem_range] at hi
      simp only [Function.comp_apply]
      rw [hg i hi, norm2_le (Nat.le_of_lt (hmono i))]
    rw [List.map_congr_left hpt]

theorem chain_segs6 (n1 y1 n2 y2 : ℕ) (hy2 : 1 ≤ y2) :
    isChain (segs6 n1 y1 n2 y2) := by
  have hS := Nat.mul_le_mul_right (n1 + 1) (Nat.div_le_self y1 2)
  have e1 : (y1 + 1) * (n1 + 1) = y1 * (n1 + 1) + (n1 + 1) := by ring
  unfold segs6
  refine isChain_cons_of_norm_eq _ _
    (fun i => i * (n2 + 1) + (y1 + 1) * (n1 + 1))
    (y1 / 2 * (n1 + 1)) y2 hy2 ?_ ?_ ?_ ?_
  · intro i
    dsimp only
    have := mul_succ_le i (i + 1) (n2 + 1) (le_refl _)
    omega
  · dsimp only
    omega
  · rw [norm2_le (by omega)]
    congr 1
    dsimp only
    omega
  · intro i hi
    dsimp only
    have := mul_succ_le i (i + 1) (n2 + 1) (le_refl _)
    exact norm2_le (by omega)

theorem chain_segs8 (n1 y1 y2 : ℕ) (hy1 : 1 ≤ y1) (hy2 : 1 ≤ y2) :
    isChain (segs8 n1 y1 n1 y2) := by
  have hS := Nat.mul_le_mul_right (n1 + 1) (Nat.div_le_self y1 2)
  have e1 : (y1 + 1) * (n1 + 1) = y1 * (n1 + 1) + (n1 + 1) := by ring
  unfold segs8
  refine ⟨(y1 / 2 * (n1 + 1) + n1) :: (List.range y2).map
      (fun i => i * (n1 + 1) + n1 + (y1 + 1) * (n1 + 1)), ?_, ?_⟩
  · rw [List.nodup_cons]
    constructor
    · intro hmem
      obtain ⟨i, _, heq⟩ := List.mem_map.1 hmem
      omega
    · refine List.Nodup.map (strictMono_nat_of_lt_succ (fun i => ?_)).injective
        (List.nodup_range _)
      have := mul_succ_le i (i + 1) (n1 + 1) (le_refl _)
      omega
  · rw [List.map_append, chainEdges_cons_map _ _ _ hy2, chainEdges_range_map]
    simp only [List.map_cons, List.map_map, List.map_nil, Function.comp_def]
    have hL : List.map (fun i => norm2 ((i + 1) * (n1 + 1) + n1
          + (y1 + 1) * (n1 + 1), i * (n1 + 1) + n1 + (y1 + 1) * (n1 + 1)))
        (List.range (y2 - 1))
        = List.map (fun i => norm2 (i * (n1 + 1) + n1 + (y1 + 1) * (n1 + 1),
          (i + 1) * (n1 + 1) + n1 + (y1 + 1) * (n1 + 1)))
        (List.range (y2 - 1)) := by
      apply List.map_congr_left
      intro i _
      have := mul_succ_le i (i + 1) (n1 + 1) (le_refl _)
      rw [norm2_gt (by omega), norm2_le (by omega)]
    rw [hL]
    have hXY : norm2 ((y1 + 1) * (n1 + 1) + n1, y1 / 2 * (n1 + 1) + n1)
        = norm2 (y1 / 2 * (n1 + 1) + n1, 0 * (n1 + 1) + n1
            + (y1 + 1) * (n1 + 1)) := by
      rw [norm2_gt (by omega), norm2_le (by omega)]
      congr 1
      omega
    rw [hXY]
    exact List.perm_append_singleton _ _

theorem norm2_cases (x y u v : ℕ) (h : norm2 (x, y) = (u, v)) :
    (x = u ∧ y = v) ∨ (x = v ∧ y = u) := by
  by_cases hxy : x ≤ y
  · rw [norm2_le hxy] at h
    left
    exact ⟨congrArg Prod.fst h, congrArg Prod.snd h⟩
  · rw [norm2_gt hxy] at h
    right
    exact ⟨congrArg Prod.snd h, congrArg Prod.fst h⟩

/-- C8 counterexample: with `nx1 = 1, ny1 = 2, nx2 = 2, ny2 = 2` (all
valid per the claim, `ny1` even) the `downleft` tag 8 carries the segments
`[(11, 8), (7, 3)]`, two segments with four distinct endpoints that share
no point: they do not form a single connected chain.  The closing segment
uses `base1 + nx1` where the column lives at `base1 + nx2`. -/
theorem chains_c8_cex : ¬ isChain (tagSegs 1 2 2 2 8) := by
  rw [tagSegs_eight]
  intro hch
  obtain ⟨vs, hnd, hperm⟩ := hch
  have hseg : (segs8 1 2 2 2).map norm2 = [(8, 11), (3, 7)] := by decide
  rw [hseg] at hperm
  have hlen := hperm.length_eq
  rw [List.length_map, chainEdges_length] at hlen
  have hvs3 : vs.length = 3 := by
    simp at hlen
    omega
  obtain ⟨a, b, c, rfl⟩ := List.length_eq_three.mp hvs3
  have hedges : chainEdges [a, b, c] = [(a, b), (b, c)] := rfl
  rw [hedges] at hperm
  simp only [List.map_cons, List.map_nil] at hperm
  have h1 : norm2 (a, b) ∈ [((8 : ℕ), (11 : ℕ)), (3, 7)] :=
    hperm.symm.subset (by simp)
  have h2 : norm2 (b, c) ∈ [((8 : ℕ), (11 : ℕ)), (3, 7)] :=
    hperm.symm.subset (by simp)
  have h3 : ((3 : ℕ), (7 : ℕ)) ∈ [norm2 (a, b), norm2 (b, c)] :=
    hperm.subset (by simp)
  have h4 : ((8 : ℕ), (11 : ℕ)) ∈ [norm2 (a, b), norm2 (b, c)] :=
    hperm.subset (by simp)
  simp only [List.mem_cons, List.not_mem_nil, or_false] at h1 h2 h3 h4
  rcases h1 with h1 | h1 <;> rcases h2 with h2 | h2
  · rcases h3 with h3 | h3
    · rw [h1] at h3
      exact absurd h3 (by decide)
    · rw [h2] at h3
      exact absurd h3 (by decide)
  · rcases norm2_cases a b 8 11 h1 with ⟨ha, hb⟩ | ⟨ha, hb⟩ <;>
      rcases norm2_cases b c 3 7 h2 with ⟨hb2, hc⟩ | ⟨hb2, hc⟩ <;> omega
  · rcases norm2_cases a b 3 7 h1 with ⟨ha, hb⟩ | ⟨ha, hb⟩ <;>
      rcases norm2_cases b c 8 11 h2 with ⟨hb2, hc⟩ | ⟨hb2, hc⟩ <;> omega
  · rcases h4 with h4 | h4
    · rw [h1] at h4
      exact absurd h4 (by decide)
    · rw [h2] at h4
      exact absurd h4 (by decide)

/-- C8 amended: for all valid parameters with `ny1` even and additionally
`nx1 = nx2`, the 1D elements carrying each of the 8 boundary tags form,
per tag, a single connected chain (the edge list, up to reordering and
per-segment orientation, of a vertex path) visiting no point twice. -/
theorem chains_c8 (nx1 ny1 nx2 ny2 : ℕ) (h1 : 1 ≤ nx1) (h2 : 1 ≤ ny1)
    (h3 : 1 ≤ nx2) (h4 : 1 ≤ ny2) (h5 : 2 ∣ ny1) (h6 : nx1 = nx2) :
    isChain (tagSegs nx1 ny1 nx2 ny2 1)
      ∧ isChain (tagSegs nx1 ny1 nx2 ny2 2)
      ∧ isChain (tagSegs nx1 ny1 nx2 ny2 3)
      ∧ isChain (tagSegs nx1 ny1 nx2 ny2 4)
      ∧ isChain (tagSegs nx1 ny1 nx2 ny2 5)
      ∧ isChain (tagSegs nx1 ny1 nx2 ny2 6)
      ∧ isChain (tagSegs nx1 ny1 nx2 ny2 7)
      ∧ isChain (tagSegs nx1 ny1 nx2 ny2 8) := by
  subst h6
  rw [tagSegs_one, tagSegs_two, tagSegs_three, tagSegs_four, tagSegs_five,
    tagSegs_six, tagSegs_seven, tagSegs_eight]
  exact ⟨chain_segs1 _, chain_segs2 _ _, chain_segs3 _ _, chain_segs4 _ _,
    chain_segs5 _ _ _, chain_segs6 _ _ _ _ h4, chain_segs7 _ _ _ _,
    chain_segs8 _ _ _ h2 h4⟩

/-- Witness for the amended C8 with all parameters 2. -/
theorem chains_c8_witness :
    (2 ∣ 2)
      ∧ (isChain (tagSegs 2 2 2 2 1) ∧ isChain (tagSegs 2 2 2 2 2)
          ∧ isChain (tagSegs 2 2 2 2 3) ∧ isChain (tagSegs 2 2 2 2 4)
          ∧ isChain (tagSegs 2 2 2 2 5) ∧ isChain (tagSegs 2 2 2 2 6)
          ∧ isChain (tagSegs 2 2 2 2 7) ∧ isChain (tagSegs 2 2 2 2 8)) :=
  ⟨by decide, chains_c8 2 2 2 2 (by decide) (by decide) (by decide)
    (by decide) (by decide) rfl⟩
